import Mathlib

/-!
# Verification of `logtail.py` (a Python `tail -f`)

Shallow embedding of `src/logtail.py`.  File content is a `List Char`
(text mode after universal-newline decoding); the handle position
(`file.tell()`) is a `Nat` offset into that list.  One iteration of the
`while True:` body of `tail_file` is `pollStep`, evaluated against the
snapshot of the file content current at that iteration; a run of the
loop over successive snapshots is `follow`.  The initial phase of
`tail_file` (open, `seek(0, 2)`, optional `readlines()` window) is
`initPhase`.  The CLI surface of `main` is `parseArgs` / `tailFileExit`.
-/

set_option autoImplicit false

namespace Logtail

/-- File content in text mode: a list of decoded characters. -/
abbrev Content := List Char

/-- The longest prefix of `l` extending through the first `'\n'`
(inclusive), or all of `l` if it holds no `'\n'`.  This is what one
Python `file.readline()` returns when the handle sits at the start of
`l`: Python's `readline` returns the bytes up to and including the next
newline, or the remaining bytes (a partial line) when the file ends
without one. -/
def takeUpToNl : List Char → List Char
  | [] => []
  | c :: t => if c = '\n' then [c] else c :: takeUpToNl t

/-- `file.readline()` at position `pos` of content `c`: the returned
string and the new handle position. -/
def readlineFrom (c : Content) (pos : Nat) : List Char × Nat :=
  let l := takeUpToNl (c.drop pos)
  (l, pos + l.length)

/-- What one iteration of the follow loop makes observable: a printed
line, the truncation marker printed to stderr, or a sleep. -/
inductive Event where
  | line (s : List Char)
  | trunc
  | wait
deriving DecidableEq, Repr

/-- One iteration of the `while True:` body of `tail_file` (lines 56-74
of `logtail.py`) against content snapshot `c` and handle position `pos`:
`current_position = file.tell(); line = file.readline()`; if `line` is
non-empty it is printed; otherwise `file.seek(0, 2); new_size =
file.tell()`, and if `new_size < current_position` the truncation
marker is printed and `file.seek(0)`, else the loop sleeps.  Returns
the observable event and the handle position at the next iteration. -/
def pollStep (c : Content) (pos : Nat) : Event × Nat :=
  let r := readlineFrom c pos
  if r.1 ≠ [] then
    (Event.line r.1, r.2)
  else if c.length < pos then
    (Event.trunc, 0)
  else
    (Event.wait, pos)

/-- Run the follow loop over the successive content snapshots `cs`
(one snapshot per iteration), threading the handle position; returns
the events in order and the final position. -/
def follow : List Content → Nat → List Event × Nat
  | [], pos => ([], pos)
  | c :: cs, pos =>
    let r := pollStep c pos
    let k := follow cs r.2
    (r.1 :: k.1, k.2)

/-- The characters carried by a `line` event; marker and sleep carry
none. -/
def lineBytes : Event → List Char
  | Event.line s => s
  | Event.trunc => []
  | Event.wait => []

/-- Concatenation of everything the loop printed to stdout. -/
def emittedBytes (evs : List Event) : List Char :=
  (evs.map lineBytes).flatten

/-!
## Initial phase of `tail_file` (lines 40-52)

`with open(...) as file: file.seek(0, 2); file_size = file.tell(); if
lines > 0: file.seek(0); all_lines = file.readlines(); for line in
all_lines[-lines:]: print(line, end='')`.
-/

/-- An open text handle: the content visible through it and the current
position. -/
structure Handle where
  content : Content
  pos : Nat
deriving DecidableEq, Repr

/-- `open(file_path, 'r')`: position 0. -/
def openFile (c : Content) : Handle := ⟨c, 0⟩

/-- `file.seek(0, 2)`: move to end of file. -/
def seekEnd (h : Handle) : Handle := ⟨h.content, h.content.length⟩

/-- `file.seek(n)`: absolute positioning. -/
def seekTo (h : Handle) (n : Nat) : Handle := ⟨h.content, n⟩

/-- Python's `str.splitlines`-style decomposition used by
`file.readlines()`: splits after every `'\n'`, keeping the terminator
on each piece, and keeps a trailing piece without a terminator when the
content does not end in `'\n'`.  An empty file gives `[]`. -/
def pyReadlines : Content → List Content
  | [] => []
  | c :: t =>
    if c = '\n' then [c] :: pyReadlines t
    else
      match pyReadlines t with
      | [] => [[c]]
      | l :: ls => (c :: l) :: ls

/-- `file.readlines()`: returns the line list of everything from the
current position on, and leaves the handle at end of file. -/
def readlinesOp (h : Handle) : List Content × Handle :=
  (pyReadlines (h.content.drop h.pos), seekEnd h)

/-- Python's `all_lines[-n:]` for `n > 0`: the suffix of length
`min n all_lines.length`. -/
def lastN {α : Type} (n : Nat) (l : List α) : List α :=
  l.drop (l.length - n)

/-- The initial phase of `tail_file`: open the file, seek to the end
(recording `file_size`), and when `lines > 0` rewind, read the whole
file with `readlines()` and print the last `lines` elements.  Returns
the printed initial window and the handle as the follow loop first
sees it.  The `lines` argument is the Python `int`, so it may be
negative; the window is guarded by `lines > 0`. -/
def initPhase (c : Content) (lines : Int) : List Content × Handle :=
  let h0 := openFile c
  let h1 := seekEnd h0
  if lines > 0 then
    let h2 := seekTo h1 0
    let r := readlinesOp h2
    (lastN lines.toNat r.1, r.2)
  else
    ([], h1)

/-!
## Error propagation of `tail_file` (lines 33, 76-81) and the CLI
(`main`, lines 84-107)

The whole body of `tail_file`, the polling loop included, sits in one
`try:` whose handlers are `except KeyboardInterrupt: sys.exit(0)` and
`except Exception: sys.exit(1)`.  Nothing inside the loop catches
anything, so an exception raised by a poll escapes the loop at once.
-/

/-- What one scheduled iteration of the follow loop encounters: a
content snapshot (normal poll), an exception raised by a read
(propagates to `except Exception`), or a `KeyboardInterrupt`
(propagates to its own handler). -/
inductive Poll where
  | snap (c : Content)
  | readErr
  | interrupt
deriving DecidableEq, Repr

/-- Whether a scheduled iteration is a normal poll. -/
def isSnap : Poll → Bool
  | Poll.snap _ => true
  | _ => false

/-- Run the follow loop inside `tail_file`'s `try:`: normal polls
behave as `pollStep`; the first exceptional iteration escapes the loop
to the matching handler, which calls `sys.exit(1)` for a plain
`Exception` and `sys.exit(0)` for `KeyboardInterrupt`.  Returns the
events emitted before the loop stopped observing and `some code` when
the session terminated with `sys.exit(code)` (`none`: still looping). -/
def followE : List Poll → Nat → List Event × Option Nat
  | [], _ => ([], none)
  | Poll.snap c :: rest, pos =>
    let r := pollStep c pos
    let k := followE rest r.2
    (r.1 :: k.1, k.2)
  | Poll.readErr :: _, _ => ([], some 1)
  | Poll.interrupt :: _, _ => ([], some 0)

/-- The parsed CLI arguments of `main`. -/
structure CliArgs where
  filename : String
  lines : Int
  interval : ℚ
deriving DecidableEq, Repr

/-- `argparse` surface of `main`: positional `filename`; `-n` alias
`--lines` (an `int`) defaults to 10; `-s` alias `--sleep-interval`
(a `float`, modelled as a rational since only its default value is at
stake) defaults to 1.0 under `dest='interval'`. -/
def parseArgs (filename : String) (nOpt : Option Int) (sOpt : Option ℚ) : CliArgs :=
  ⟨filename, nOpt.getD 10, sOpt.getD 1⟩

/-- How the monitoring loop of a started session ends, if at all. -/
inductive LoopOutcome where
  | keyboardInterrupt
  | exc
  | runsForever
deriving DecidableEq, Repr

/-- Exit behaviour of `tail_file`: if the path does not exist at start,
`sys.exit(1)` (the `SystemExit` it raises is not an `Exception`, so the
handlers do not intercept it); otherwise a `KeyboardInterrupt` exits 0,
any other exception exits 1, and a forever-running loop never exits. -/
def tailFileExit (fileExists : Bool) (out : LoopOutcome) : Option Nat :=
  if fileExists = false then some 1
  else
    match out with
    | LoopOutcome.keyboardInterrupt => some 0
    | LoopOutcome.exc => some 1
    | LoopOutcome.runsForever => none

/-!
## Spec-side definitions

These two definitions follow the words of the specification (not the
code); they exist only to state where code and spec part ways.
-/

/-- From the spec's words: a file's "content up to the last
newline-terminated line" — the longest prefix ending in `'\n'`, empty
when no line is newline-terminated. -/
def specLastNlPrefix (c : Content) : Content :=
  (c.reverse.dropWhile (fun ch => ch ≠ '\n')).reverse

/-- From the spec's words: the "complete lines" of a file — the
newline-terminated elements of its line decomposition, excluding any
trailing partial line. -/
def specCompleteLines (c : Content) : List Content :=
  (pyReadlines c).filter (fun l => l.getLast? = some '\n')

/-!
## Basic lemmas about `readline`
-/

theorem takeUpToNl_prefixOf (l : List Char) : takeUpToNl l <+: l := by
  induction l with
  | nil => simp [takeUpToNl]
  | cons c t ih =>
    by_cases h : c = '\n'
    · simp [takeUpToNl, h]
    · simpa [takeUpToNl, h] using ih

theorem takeUpToNl_eq_nil_iff (l : List Char) : takeUpToNl l = [] ↔ l = [] := by
  cases l with
  | nil => simp [takeUpToNl]
  | cons c t =>
    constructor
    · intro h
      by_cases hc : c = '\n' <;> simp [takeUpToNl, hc] at h
    · intro h
      exact absurd h (List.cons_ne_nil c t)

theorem takeUpToNl_of_no_nl {l : List Char} (h : '\n' ∉ l) : takeUpToNl l = l := by
  induction l with
  | nil => rfl
  | cons c t ih =>
    simp only [List.mem_cons, not_or] at h
    simp [takeUpToNl, Ne.symm h.1, ih h.2]

theorem takeUpToNl_length_le (l : List Char) : (takeUpToNl l).length ≤ l.length :=
  (takeUpToNl_prefixOf l).length_le

theorem takeUpToNl_eq_take (l : List Char) :
    takeUpToNl l = l.take (takeUpToNl l).length :=
  List.prefix_iff_eq_take.mp (takeUpToNl_prefixOf l)

theorem readlineFrom_fst_eq_nil_iff (c : Content) (pos : Nat) :
    (readlineFrom c pos).1 = [] ↔ c.length ≤ pos := by
  simp [readlineFrom, takeUpToNl_eq_nil_iff, List.drop_eq_nil_iff]

/-!
## Case analysis of one poll
-/

/-- The truncation branch fires exactly when the file has shrunk below
the cursor (in which case `readline` necessarily returned `''`). -/
theorem pollStep_fst_eq_trunc_iff (c : Content) (pos : Nat) :
    (pollStep c pos).1 = Event.trunc ↔ c.length < pos := by
  constructor
  · intro h
    by_cases h1 : (readlineFrom c pos).1 ≠ []
    · simp [pollStep, h1] at h
    · by_cases h2 : c.length < pos
      · exact h2
      · simp [pollStep, h1, h2] at h
  · intro h
    have h1 : (readlineFrom c pos).1 = [] :=
      (readlineFrom_fst_eq_nil_iff c pos).mpr h.le
    simp [pollStep, h1, h]

/-- The sleep branch fires exactly when the cursor sits at end of
file. -/
theorem pollStep_fst_eq_wait_iff (c : Content) (pos : Nat) :
    (pollStep c pos).1 = Event.wait ↔ pos = c.length := by
  constructor
  · intro h
    by_cases h1 : (readlineFrom c pos).1 ≠ []
    · simp [pollStep, h1] at h
    · by_cases h2 : c.length < pos
      · simp [pollStep, h1, h2] at h
      · rw [not_not, readlineFrom_fst_eq_nil_iff] at h1
        omega
  · intro h
    have h1 : (readlineFrom c pos).1 = [] :=
      (readlineFrom_fst_eq_nil_iff c pos).mpr h.ge
    simp [pollStep, h1, show ¬ c.length < pos by omega]

/-- On truncation detection the marker is printed and the cursor is
reset to 0. -/
theorem pollStep_of_truncated {c : Content} {pos : Nat} (h : c.length < pos) :
    pollStep c pos = (Event.trunc, 0) := by
  have h1 : (readlineFrom c pos).1 = [] :=
    (readlineFrom_fst_eq_nil_iff c pos).mpr h.le
  simp [pollStep, h1, h]

/-- A poll against a snapshot the cursor is inside of advances the
cursor monotonically, stays inside the snapshot, never fires the
truncation branch, and prints exactly the slice of the snapshot between
the old and the new cursor. -/
theorem pollStep_slice {c : Content} {pos : Nat} (h : pos ≤ c.length) :
    pos ≤ (pollStep c pos).2 ∧ (pollStep c pos).2 ≤ c.length ∧
    lineBytes (pollStep c pos).1 = (c.drop pos).take ((pollStep c pos).2 - pos) ∧
    (pollStep c pos).1 ≠ Event.trunc := by
  by_cases h1 : (readlineFrom c pos).1 ≠ []
  · have hstep : pollStep c pos = (Event.line (readlineFrom c pos).1, (readlineFrom c pos).2) := by
      simp [pollStep, h1]
    have hlen : (takeUpToNl (c.drop pos)).length ≤ c.length - pos := by
      have := takeUpToNl_length_le (c.drop pos)
      simpa using this
    refine ⟨?_, ?_, ?_, ?_⟩
    · rw [hstep]; exact Nat.le_add_right _ _
    · rw [hstep]
      show pos + (takeUpToNl (c.drop pos)).length ≤ c.length
      omega
    · rw [hstep]
      show takeUpToNl (c.drop pos) =
        (c.drop pos).take (pos + (takeUpToNl (c.drop pos)).length - pos)
      rw [Nat.add_sub_cancel_left]
      exact takeUpToNl_eq_take (c.drop pos)
    · rw [hstep]; simp
  · have h2 : (readlineFrom c pos).1 = [] := not_not.mp h1
    have h3 : c.length ≤ pos := (readlineFrom_fst_eq_nil_iff c pos).mp h2
    have hstep : pollStep c pos = (Event.wait, pos) := by
      simp [pollStep, h2, show ¬ c.length < pos by omega]
    rw [hstep]
    exact ⟨le_refl _, h, by simp [lineBytes], by simp⟩

/-!
## The follow loop over a growing file
-/

theorem emittedBytes_cons (e : Event) (evs : List Event) :
    emittedBytes (e :: evs) = lineBytes e ++ emittedBytes evs := by
  simp [emittedBytes]

theorem follow_cons (c : Content) (cs : List Content) (pos : Nat) :
    follow (c :: cs) pos =
      ((pollStep c pos).1 :: (follow cs (pollStep c pos).2).1,
        (follow cs (pollStep c pos).2).2) := rfl

/-- A slice of a file is unchanged by appending, as long as it lies
inside the original content. -/
theorem prefix_drop_take {c f : Content} {pos k : Nat} (h : c <+: f)
    (hk : pos + k ≤ c.length) :
    (c.drop pos).take k = (f.drop pos).take k := by
  obtain ⟨t, rfl⟩ := h
  rw [List.drop_append_eq_append_drop, show pos - c.length = 0 by omega,
    List.drop_zero, List.take_append_of_le_length]
  simp
  omega

/-- Main accounting lemma for append-only runs: over any chain of
snapshots each a prefix of the next (the file only grows), a run of the
follow loop starting inside the first snapshot never fires the
truncation branch, moves the cursor monotonically, stays inside the
final content `f`, and prints exactly the slice of `f` between the
initial and the final cursor — every byte once, in file order. -/
theorem follow_slice :
    ∀ (cs : List Content) (c : Content) (pos : Nat) (f : Content),
      List.Chain' (· <+: ·) (c :: cs) → (c :: cs).getLast? = some f →
      pos ≤ c.length →
      c <+: f ∧
      pos ≤ (follow (c :: cs) pos).2 ∧
      (follow (c :: cs) pos).2 ≤ f.length ∧
      emittedBytes (follow (c :: cs) pos).1 =
        (f.drop pos).take ((follow (c :: cs) pos).2 - pos) ∧
      Event.trunc ∉ (follow (c :: cs) pos).1 := by
  intro cs
  induction cs with
  | nil =>
    intro c pos f hch hlast hpos
    have hf : c = f := by simpa using hlast
    subst hf
    obtain ⟨h1, h2, h3, h4⟩ := pollStep_slice hpos
    rw [follow_cons]
    refine ⟨List.prefix_refl c, by simpa using h1, by simpa using h2, ?_, ?_⟩
    · simpa [follow, emittedBytes_cons, emittedBytes] using h3
    · simpa [follow] using fun hcon => h4 hcon.symm
  | cons c' cs' ih =>
    intro c pos f hch hlast hpos
    rw [List.chain'_cons] at hch
    obtain ⟨hcc', hch'⟩ := hch
    have hlast' : (c' :: cs').getLast? = some f := by
      simpa [List.getLast?_cons_cons] using hlast
    obtain ⟨hs1, hs2, hs3, hs4⟩ := pollStep_slice hpos
    have hp1 : (pollStep c pos).2 ≤ c'.length := le_trans hs2 hcc'.length_le
    obtain ⟨hpre, h1, h2, h3, h4⟩ := ih c' (pollStep c pos).2 f hch' hlast' hp1
    have hcf : c <+: f := hcc'.trans hpre
    rw [follow_cons]
    refine ⟨hcf, le_trans hs1 h1, h2, ?_, ?_⟩
    · rw [emittedBytes_cons, h3]
      have hb : lineBytes (pollStep c pos).1 =
          (f.drop pos).take ((pollStep c pos).2 - pos) := by
        rw [hs3]
        exact prefix_drop_take hcf (by omega)
      rw [hb]
      have hd : f.drop (pollStep c pos).2 =
          (f.drop pos).drop ((pollStep c pos).2 - pos) := by
        rw [List.drop_drop]
        congr 1
        omega
      rw [hd, ← List.take_add]
      congr 1
      omega
    · intro hmem
      rcases List.mem_cons.mp hmem with hmem | hmem
      · exact hs4 hmem.symm
      · exact h4 hmem

/-- A poll that fires the sleep branch pins the cursor to the
snapshot's length: `readline` returned `''` (cursor at or past end)
and the size check found no regression. -/
theorem pollStep_wait_pos {c : Content} {pos : Nat}
    (h : (pollStep c pos).1 = Event.wait) : (pollStep c pos).2 = pos ∧ pos = c.length := by
  have hpos : pos = c.length := (pollStep_fst_eq_wait_iff c pos).mp h
  have h1 : (readlineFrom c pos).1 = [] :=
    (readlineFrom_fst_eq_nil_iff c pos).mpr hpos.ge
  constructor
  · simp [pollStep, h1, show ¬ c.length < pos by omega]
  · exact hpos

/-- Drained append-only run: when one further poll against the final
content finds nothing to read and no size regression, the run has
emitted exactly the final content from the initial cursor through end
of file, and the truncation branch never fired. -/
theorem follow_drained (c : Content) (cs : List Content) (pos : Nat) (f : Content)
    (hch : List.Chain' (· <+: ·) (c :: cs)) (hlast : (c :: cs).getLast? = some f)
    (hpos : pos ≤ c.length)
    (hq : (pollStep f (follow (c :: cs) pos).2).1 = Event.wait) :
    emittedBytes (follow (c :: cs) pos).1 = f.drop pos ∧
    Event.trunc ∉ (follow (c :: cs) pos).1 := by
  obtain ⟨hcf, h1, h2, h3, h4⟩ := follow_slice cs c pos f hch hlast hpos
  have hend : (follow (c :: cs) pos).2 = f.length := by
    have := pollStep_wait_pos hq
    exact this.2
  refine ⟨?_, h4⟩
  rw [h3, hend, ← List.length_drop]
  exact List.take_length _

/-!
## Lemmas about `readlines`
-/

theorem pyReadlines_eq_nil_iff (c : Content) : pyReadlines c = [] ↔ c = [] := by
  cases c with
  | nil => simp [pyReadlines]
  | cons ch t =>
    constructor
    · intro h
      by_cases hc : ch = '\n'
      · simp [pyReadlines, hc] at h
      · simp only [pyReadlines, if_neg hc] at h
        cases hpt : pyReadlines t with
        | nil => rw [hpt] at h; exact absurd h (List.cons_ne_nil _ _)
        | cons l ls => rw [hpt] at h; exact absurd h (List.cons_ne_nil _ _)
    · intro h
      exact absurd h (List.cons_ne_nil ch t)

/-- `readlines` is a decomposition of the file: concatenating the line
list gives back the content, so the window preserves content and
order. -/
theorem pyReadlines_flatten : ∀ c : Content, (pyReadlines c).flatten = c := by
  intro c
  induction c with
  | nil => rfl
  | cons ch t ih =>
    by_cases hc : ch = '\n'
    · subst hc
      simp [pyReadlines, ih]
    · simp only [pyReadlines, if_neg hc]
      cases hpt : pyReadlines t with
      | nil =>
        have ht : t = [] := (pyReadlines_eq_nil_iff t).mp hpt
        simp [ht]
      | cons l ls =>
        rw [hpt] at ih
        simpa using ih

/-!
## Claims
-/

/-- C1, counterexample: an append-only, fully drained run over final
content `"ab"` (no newline-terminated line at all) emits the bytes
`"ab"`, which differs from the file's content up to the last
newline-terminated line (empty here): `readline` returns trailing
partial bytes at end of file, so the loop prints past the last
newline. -/
theorem C1_counterexample :
    List.Chain' (· <+: ·) [['a', 'b'], ['a', 'b']] ∧
    (pollStep ['a', 'b'] (follow [['a', 'b'], ['a', 'b']] 0).2).1 = Event.wait ∧
    Event.trunc ∉ (follow [['a', 'b'], ['a', 'b']] 0).1 ∧
    emittedBytes (follow [['a', 'b'], ['a', 'b']] 0).1 ≠ specLastNlPrefix ['a', 'b'] :=
  ⟨List.chain'_pair.mpr (List.prefix_refl _), by decide, by decide, by decide⟩

/-- C1 (amended): for every append-only run of the follow loop (each
snapshot a prefix of the next) that is drained at the end (one more
poll against the final content `f` hits the sleep branch), the
concatenation of all emitted output equals the final content from the
initial cursor through end of file — trailing partial bytes included —
with no duplicated and no missing bytes, in file order, and the
truncation branch never fires.  When `f` ends in a newline this is
exactly the content up to the last newline-terminated line. -/
theorem C1_append_run (c : Content) (cs : List Content) (pos : Nat) (f : Content)
    (hch : List.Chain' (· <+: ·) (c :: cs)) (hlast : (c :: cs).getLast? = some f)
    (hpos : pos ≤ c.length)
    (hq : (pollStep f (follow (c :: cs) pos).2).1 = Event.wait) :
    emittedBytes (follow (c :: cs) pos).1 = f.drop pos ∧
    Event.trunc ∉ (follow (c :: cs) pos).1 :=
  follow_drained c cs pos f hch hlast hpos hq

/-- Witness for C1: the two-poll run over `"a\n"` then `"a\nb"`,
drained, emits exactly `"a\nb"`. -/
theorem C1_append_run_witness :
    emittedBytes (follow [['a', '\n'], ['a', '\n', 'b']] 0).1 = ['a', '\n', 'b'] ∧
    Event.trunc ∉ (follow [['a', '\n'], ['a', '\n', 'b']] 0).1 := by
  have h := C1_append_run ['a', '\n'] [['a', '\n', 'b']] 0 ['a', '\n', 'b']
    (List.chain'_pair.mpr ⟨['b'], rfl⟩) (by decide) (by decide) (by decide)
  simpa using h

/-- C2, counterexample: with content `"partial"` (no newline) and the
cursor at 0, one poll emits the partial bytes as a line event —
`readline` returns the unterminated tail at end of file — contradicting
the claim that partial bytes are never emitted before a newline
arrives. -/
theorem C2_counterexample :
    '\n' ∉ ("partial".data) ∧ "partial".data ≠ [] ∧
    (pollStep "partial".data 0).1 = Event.line "partial".data := by
  decide

/-- C2 (amended): a poll whose readable region holds no newline emits
the partial trailing bytes at once, and once the terminating rest of
the line arrives a later poll emits the remainder as a second, separate
line event: the completed line is split across two emissions (no byte
duplicated, none lost), rather than withheld until the newline
arrives. -/
theorem C2_partial_split (c d : Content) (pos : Nat)
    (hpos : pos < c.length) (hnl : '\n' ∉ c.drop pos)
    (hd : d ≠ []) (hdnl : takeUpToNl d = d) :
    follow [c, c ++ d] pos =
      ([Event.line (c.drop pos), Event.line d], (c ++ d).length) := by
  have hdrop : c.drop pos ≠ [] := by
    simp only [ne_eq, List.drop_eq_nil_iff]
    omega
  have h1 : takeUpToNl (c.drop pos) = c.drop pos := takeUpToNl_of_no_nl hnl
  have hstep1 : pollStep c pos = (Event.line (c.drop pos), c.length) := by
    simp only [pollStep, readlineFrom, h1, ne_eq, hdrop, not_false_iff, if_true]
    have : pos + (c.drop pos).length = c.length := by
      simp only [List.length_drop]
      omega
    rw [this]
  have hstep2 : pollStep (c ++ d) c.length = (Event.line d, (c ++ d).length) := by
    have hdl : (c ++ d).drop c.length = d := List.drop_left c d
    simp only [pollStep, readlineFrom, hdl, hdnl, ne_eq, hd, not_false_iff, if_true]
    rw [List.length_append]
  rw [follow_cons, hstep1]
  rw [follow_cons, hstep2]
  rfl

/-- Witness for C2: `"partial"` is emitted at once; after
`"-end\n"` arrives the remainder is emitted as a second line event. -/
theorem C2_partial_split_witness :
    follow ["partial".data, "partial".data ++ "-end\n".data] 0 =
      ([Event.line ("partial".data), Event.line ("-end\n".data)],
        ("partial".data ++ "-end\n".data).length) := by
  have h := C2_partial_split "partial".data "-end\n".data 0
    (by decide) (by decide) (by decide) (by decide)
  simpa using h

/-- C3: the follow loop fires its truncation branch exactly when
`readline` returned `''` and the file's current size is strictly below
the cursor; and over a run whose first snapshot is the truncated file
(size below the cursor) followed by append-only growth to a drained
final content `f`, the loop emits exactly one truncation marker, first,
and then — from cursor 0 — exactly the post-truncation file's bytes,
never pre-truncation content. -/
theorem C3_truncation (c₀ c₁ : Content) (cs : List Content) (pos : Nat) (f : Content)
    (hdet : c₀.length < pos)
    (hch : List.Chain' (· <+: ·) (c₀ :: c₁ :: cs))
    (hlast : (c₁ :: cs).getLast? = some f)
    (hq : (pollStep f (follow (c₀ :: c₁ :: cs) pos).2).1 = Event.wait) :
    (∀ (c : Content) (p : Nat),
      (pollStep c p).1 = Event.trunc ↔ (readlineFrom c p).1 = [] ∧ c.length < p) ∧
    (follow (c₀ :: c₁ :: cs) pos).1 = Event.trunc :: (follow (c₁ :: cs) 0).1 ∧
    Event.trunc ∉ (follow (c₁ :: cs) 0).1 ∧
    emittedBytes (follow (c₁ :: cs) 0).1 = f := by
  have hiff : ∀ (c : Content) (p : Nat),
      (pollStep c p).1 = Event.trunc ↔ (readlineFrom c p).1 = [] ∧ c.length < p := by
    intro c p
    rw [pollStep_fst_eq_trunc_iff, readlineFrom_fst_eq_nil_iff]
    omega
  have hstep : pollStep c₀ pos = (Event.trunc, 0) := pollStep_of_truncated hdet
  have hrun : follow (c₀ :: c₁ :: cs) pos =
      (Event.trunc :: (follow (c₁ :: cs) 0).1, (follow (c₁ :: cs) 0).2) := by
    rw [follow_cons, hstep]
  rw [List.chain'_cons] at hch
  have hq' : (pollStep f (follow (c₁ :: cs) 0).2).1 = Event.wait := by
    rw [hrun] at hq
    exact hq
  obtain ⟨hbytes, hnotr⟩ :=
    follow_drained c₁ cs 0 f hch.2 hlast (Nat.zero_le _) hq'
  refine ⟨hiff, by rw [hrun], hnotr, ?_⟩
  simpa using hbytes

/-- Witness for C3: the file is truncated to empty while the cursor is
at 4, then `"e\n"` is appended: the run emits the marker and then
`"e\n"`. -/
theorem C3_truncation_witness :
    (∀ (c : Content) (p : Nat),
      (pollStep c p).1 = Event.trunc ↔ (readlineFrom c p).1 = [] ∧ c.length < p) ∧
    (follow [[], ['e', '\n']] 4).1 = Event.trunc :: (follow [['e', '\n']] 0).1 ∧
    Event.trunc ∉ (follow [['e', '\n']] 0).1 ∧
    emittedBytes (follow [['e', '\n']] 0).1 = ['e', '\n'] :=
  C3_truncation [] ['e', '\n'] [] 4 ['e', '\n'] (by decide)
    (List.chain'_pair.mpr ⟨['e', '\n'], rfl⟩) (by decide) (by decide)

/-- C4, counterexample: after one successful poll that emitted
`"a\n"`, a transient read error during the next poll escapes the
`while` loop to `except Exception: sys.exit(1)`: the session
terminates with exit code 1 and the later snapshot `"b\n"` is never
read — nothing retries the poll. -/
theorem C4_counterexample :
    followE [Poll.snap ['a', '\n'], Poll.readErr, Poll.snap ['b', '\n']] 0 =
      ([Event.line ['a', '\n']], some 1) := by
  decide

/-- C4 (amended): nothing inside the polling loop catches anything, so
the first read error raised during any poll — however transient —
escapes to `tail_file`'s outer `except Exception` handler and
terminates the session with exit code 1, discarding all later polls;
a `KeyboardInterrupt` terminates it with exit code 0.  Poll-time and
open-time failures share one fate: no failure is retried. -/
theorem C4_error_terminates :
    (∀ (ps qs : List Poll) (pos : Nat), ps.all isSnap = true →
      followE (ps ++ Poll.readErr :: qs) pos = ((followE ps pos).1, some 1)) ∧
    (∀ (qs : List Poll) (pos : Nat),
      followE (Poll.interrupt :: qs) pos = ([], some 0)) := by
  constructor
  · intro ps
    induction ps with
    | nil => intro qs pos _; rfl
    | cons p ps' ih =>
      intro qs pos hall
      rw [List.all_cons, Bool.and_eq_true] at hall
      cases p with
      | snap c =>
        have h := ih qs (pollStep c pos).2 hall.2
        simp only [List.cons_append, followE, List.append_eq, h]
      | readErr => exact absurd hall.1 (by simp [isSnap])
      | interrupt => exact absurd hall.1 (by simp [isSnap])
  · intro qs pos
    rfl

/-- Witness for C4: a read error right after one successful poll stops
the session with exit code 1. -/
theorem C4_error_terminates_witness :
    followE ([Poll.snap ['x', '\n']] ++ Poll.readErr :: []) 0 =
      ((followE [Poll.snap ['x', '\n']] 0).1, some 1) :=
  C4_error_terminates.1 [Poll.snap ['x', '\n']] [] 0 (by decide)

/-- C5, counterexample: on the file `"a\nb\nc"` (whose complete lines
are `"a\n"` and `"b\n"`; `"c"` is a partial trailing line) with
`n = 2`, the initial window prints `["b\n", "c"]`, not the last two
complete lines `["a\n", "b\n"]`: `readlines()` counts the unterminated
tail as a line. -/
theorem C5_counterexample :
    (initPhase "a\nb\nc".data 2).1 = ["b\n".data, "c".data] ∧
    (initPhase "a\nb\nc".data 2).1 ≠ lastN 2 (specCompleteLines "a\nb\nc".data) := by
  decide

/-- C5 (amended): for every file and every positive count `n`, the
initial window is a suffix of the file's `readlines()` decomposition —
in which a trailing non-newline-terminated fragment counts as a final
line — of length `min n M` where `M` is the number of such lines (so
all `M` when `M < n`), in original order, and the decomposition
concatenates back to the unaltered file content.  When the file ends in
a newline every element is a complete line and the original claim
holds. -/
theorem C5_initial_window (c : Content) (n : Int) (hn : 0 < n) :
    ∃ pre, pyReadlines c = pre ++ (initPhase c n).1 ∧
      (initPhase c n).1.length = min n.toNat (pyReadlines c).length ∧
      pre.flatten ++ ((initPhase c n).1).flatten = c := by
  have hinit : (initPhase c n).1 = lastN n.toNat (pyReadlines c) := by
    simp [initPhase, hn, readlinesOp, seekTo, seekEnd, openFile]
  refine ⟨(pyReadlines c).take ((pyReadlines c).length - n.toNat), ?_, ?_, ?_⟩
  · rw [hinit]
    exact (List.take_append_drop _ _).symm
  · rw [hinit]
    simp only [lastN, List.length_drop]
    omega
  · rw [hinit, ← List.flatten_append, lastN, List.take_append_drop]
    exact pyReadlines_flatten c

/-- Witness for C5: the window of `"x\ny"` with `n = 1`. -/
theorem C5_initial_window_witness :
    ∃ pre, pyReadlines "x\ny".data = pre ++ (initPhase "x\ny".data 1).1 ∧
      (initPhase "x\ny".data 1).1.length =
        min (Int.toNat 1) (pyReadlines "x\ny".data).length ∧
      pre.flatten ++ ((initPhase "x\ny".data 1).1).flatten = "x\ny".data :=
  C5_initial_window "x\ny".data 1 (by decide)

/-- C6: with `lines = 0` the initial phase prints no window at all and
leaves the handle at end of file (position = the file's length, content
untouched; the `readlines()` path is never entered), and a subsequent
drained append-only run emits exactly the bytes appended after session
start — no line already present at start is ever emitted. -/
theorem C6_skip_initial (c c₁ : Content) (cs : List Content) (f : Content)
    (hch : List.Chain' (· <+: ·) (c :: c₁ :: cs))
    (hlast : (c₁ :: cs).getLast? = some f)
    (hq : (pollStep f (follow (c₁ :: cs) (initPhase c 0).2.pos).2).1 = Event.wait) :
    initPhase c 0 = ([], ⟨c, c.length⟩) ∧
    emittedBytes (follow (c₁ :: cs) (initPhase c 0).2.pos).1 = f.drop c.length := by
  have hinit : initPhase c 0 = ([], ⟨c, c.length⟩) := by
    simp [initPhase, openFile, seekEnd]
  rw [List.chain'_cons] at hch
  have hlen : c.length ≤ c₁.length := hch.1.length_le
  have hpos : (initPhase c 0).2.pos = c.length := by rw [hinit]
  rw [hpos] at hq ⊢
  obtain ⟨hbytes, _⟩ := follow_drained c₁ cs c.length f hch.2 hlast hlen hq
  exact ⟨hinit, hbytes⟩

/-- Witness for C6: starting on `"a\n"` with `lines = 0`, the window is
empty and appending `"d\n"` makes the run emit exactly `"d\n"`. -/
theorem C6_skip_initial_witness :
    initPhase ['a', '\n'] 0 = ([], ⟨['a', '\n'], (['a', '\n'] : Content).length⟩) ∧
    emittedBytes (follow [['a', '\n', 'd', '\n']]
        (initPhase ['a', '\n'] 0).2.pos).1 = (['a', '\n', 'd', '\n'] : Content).drop 2 :=
  C6_skip_initial ['a', '\n'] ['a', '\n', 'd', '\n'] [] ['a', '\n', 'd', '\n']
    (List.chain'_pair.mpr ⟨['d', '\n'], rfl⟩) (by decide) (by decide)

/-- C7: the CLI of `main` defaults `--lines` to 10 and
`--sleep-interval` to 1.0, and `tail_file` exits with code 1 when the
file does not exist at start, code 0 on `KeyboardInterrupt`, code 1 on
any other exception, and never exits while the loop keeps running. -/
theorem C7_cli :
    (∀ fn : String,
      (parseArgs fn none none).lines = 10 ∧ (parseArgs fn none none).interval = 1) ∧
    (∀ out : LoopOutcome, tailFileExit false out = some 1) ∧
    tailFileExit true LoopOutcome.keyboardInterrupt = some 0 ∧
    tailFileExit true LoopOutcome.exc = some 1 ∧
    tailFileExit true LoopOutcome.runsForever = none :=
  ⟨fun _ => ⟨rfl, rfl⟩, fun _ => rfl, rfl, rfl, rfl⟩

/-- C8: at each poll the cursor is a byte offset (hence nonnegative),
and a poll whose cursor lies inside the snapshot keeps it inside the
snapshot and moves it monotonically — so when the file only grows
(each next snapshot extends the last) `0 ≤ cursor ≤ size` holds at
every iteration start; the only violation, a cursor beyond a shrunken
file, is resolved by that very poll resetting the cursor to 0. -/
theorem C8_cursor_invariant (c c' : Content) (pos : Nat) :
    (pos ≤ c.length →
      pos ≤ (pollStep c pos).2 ∧ (pollStep c pos).2 ≤ c.length ∧
      (c <+: c' → (pollStep c pos).2 ≤ c'.length)) ∧
    (c.length < pos → (pollStep c pos).2 = 0) := by
  constructor
  · intro h
    obtain ⟨h1, h2, _, _⟩ := pollStep_slice h
    exact ⟨h1, h2, fun hp => le_trans h2 hp.length_le⟩
  · intro h
    rw [pollStep_of_truncated h]

/-- Witness for C8: one poll of `"a\nb"` from cursor 1 keeps the
cursor inside the file, also inside the grown file `"a\nbc"`; one poll
of the empty file from cursor 3 resets the cursor to 0. -/
theorem C8_cursor_invariant_witness :
    (1 ≤ (pollStep ['a', '\n', 'b'] 1).2 ∧
      (pollStep ['a', '\n', 'b'] 1).2 ≤ (['a', '\n', 'b'] : Content).length ∧
      (['a', '\n', 'b'] <+: ['a', '\n', 'b', 'c'] →
        (pollStep ['a', '\n', 'b'] 1).2 ≤ (['a', '\n', 'b', 'c'] : Content).length)) ∧
    (pollStep ([] : Content) 3).2 = 0 :=
  ⟨(C8_cursor_invariant ['a', '\n', 'b'] ['a', '\n', 'b', 'c'] 1).1 (by decide),
    (C8_cursor_invariant [] ['a'] 3).2 (by decide)⟩

/-- C9: a negative `lines` argument behaves exactly like `lines = 0`
(the window is guarded by Python's `lines > 0`): the initial window is
empty, no error is raised, and the handle is left at end of file. -/
theorem C9_negative_lines (c : Content) (n : Int) (hn : n < 0) :
    initPhase c n = ([], ⟨c, c.length⟩) ∧ initPhase c n = initPhase c 0 := by
  have h : ¬ 0 < n := by omega
  constructor
  · simp [initPhase, h, openFile, seekEnd]
  · simp [initPhase, h, openFile, seekEnd]

/-- Witness for C9: `lines = -5` on `"a\n"`. -/
theorem C9_negative_lines_witness :
    initPhase ['a', '\n'] (-5) = ([], ⟨['a', '\n'], (['a', '\n'] : Content).length⟩) ∧
    initPhase ['a', '\n'] (-5) = initPhase ['a', '\n'] 0 :=
  C9_negative_lines ['a', '\n'] (-5) (by decide)

/-- C10: for every `lines` value the initial phase leaves the handle's
position at the size the file had at open time (via `seek(0, 2)` when
`lines ≤ 0`, via exhausting `readlines()` when `lines > 0`), so every
byte the follow loop emits over any append-only continuation lies
strictly after the session-start content: nothing present at start is
re-emitted. -/
theorem C10_start_at_eof (c : Content) (n : Int) (c₁ : Content) (cs : List Content)
    (f : Content)
    (hch : List.Chain' (· <+: ·) (c :: c₁ :: cs))
    (hlast : (c₁ :: cs).getLast? = some f) :
    (initPhase c n).2.pos = c.length ∧ (initPhase c n).2.content = c ∧
    emittedBytes (follow (c₁ :: cs) ((initPhase c n).2.pos)).1 =
      (f.drop c.length).take
        ((follow (c₁ :: cs) ((initPhase c n).2.pos)).2 - c.length) := by
  have hpos : (initPhase c n).2.pos = c.length := by
    by_cases h : 0 < n <;> simp [initPhase, h, readlinesOp, seekTo, seekEnd, openFile]
  have hcontent : (initPhase c n).2.content = c := by
    by_cases h : 0 < n <;> simp [initPhase, h, readlinesOp, seekTo, seekEnd, openFile]
  rw [List.chain'_cons] at hch
  have hlen : c.length ≤ c₁.length := hch.1.length_le
  rw [hpos]
  obtain ⟨_, _, _, hbytes, _⟩ := follow_slice cs c₁ c.length f hch.2 hlast hlen
  exact ⟨rfl, hcontent, hbytes⟩

/-- Witness for C10: after an initial window of 10 lines over `"a\n"`,
the cursor starts at 2 and a run over the grown file `"a\nz\n"` emits
only the appended slice. -/
theorem C10_start_at_eof_witness :
    (initPhase ['a', '\n'] 10).2.pos = (['a', '\n'] : Content).length ∧
    (initPhase ['a', '\n'] 10).2.content = ['a', '\n'] ∧
    emittedBytes (follow [['a', '\n', 'z', '\n']]
        ((initPhase ['a', '\n'] 10).2.pos)).1 =
      ((['a', '\n', 'z', '\n'] : Content).drop 2).take
        ((follow [['a', '\n', 'z', '\n']] ((initPhase ['a', '\n'] 10).2.pos)).2 - 2) :=
  C10_start_at_eof ['a', '\n'] 10 ['a', '\n', 'z', '\n'] [] ['a', '\n', 'z', '\n']
    (List.chain'_pair.mpr ⟨['z', '\n'], rfl⟩) (by decide)

end Logtail
